import Mathlib

/- Verification of the DGNv8 element/feature translation engine
   (`src/ogr/ogrsf_frmts/dwg/ogr_dgnv8.h`).  The repository ships only the
   class declarations; every method body lives in a compilation unit that is
   not part of the source tree, so the operational content below is modelled
   from the specification.  Numeric endpoint tolerance is modelled as exact
   equality over integer coordinates. -/

namespace DGNv8

/-- Planar point with exact integer coordinates. -/
abbrev Point := Int × Int

/-- Kind of a primitive sub-element: straight line segment or circular arc. -/
inductive SegKind where
  | line
  | arc
deriving DecidableEq, Repr

/-- One curve segment of a given kind with a start and an end point. -/
structure Seg where
  kind : SegKind
  p : Point
  q : Point
deriving DecidableEq, Repr

/-- Modelled from the spec: a primitive CAD sub-element descriptor, one
contiguous same-type run of segments (all-line or all-arc).  The source tree
only declares the element types (`ogr_dgnv8.h`); the bodies using them are
missing. -/
structure Primitive where
  kind : SegKind
  segs : List Seg
deriving DecidableEq, Repr

/-- A multi-part curve: its segments in traversal order plus the non-simple
flag set by the assembler when segment endpoints fail to chain contiguously. -/
structure Curve where
  segs : List Seg
  nonSimple : Bool
deriving DecidableEq, Repr

/-- Segments of a list of primitive descriptors, in traversal order. -/
def primSegs : List Primitive → List Seg
  | [] => []
  | pr :: rest => pr.segs ++ primSegs rest

/-- Endpoint contiguity: the end point of segment i equals the start point of
segment i+1 (exact integer equality models the fixed numeric tolerance). -/
def chainsB : List Seg → Bool
  | [] => true
  | [_] => true
  | s1 :: s2 :: rest => decide (s1.q = s2.p) && chainsB (s2 :: rest)

/-- Modelled from the spec: `AssembleCurve` (the geometry-assembly half of
`OGRDGNV8Layer::AddToComplexCurve` / `CreateShape`, whose bodies are missing
from src/) concatenates the primitives' segments in traversal order into a
single multi-part curve; on an endpoint-chaining mismatch it emits the curve
as-is but flags it non-simple instead of aborting. -/
def AssembleCurve (ps : List Primitive) : Curve :=
  ⟨primSegs ps, !chainsB (primSegs ps)⟩

/-- Group a segment list into maximal contiguous same-kind runs, one primitive
descriptor per run. -/
def decomposeRuns : List Seg → List Primitive
  | [] => []
  | s :: rest =>
    match decomposeRuns rest with
    | [] => [⟨s.kind, [s]⟩]
    | pr :: prs =>
      if s.kind = pr.kind then ⟨pr.kind, s :: pr.segs⟩ :: prs
      else ⟨s.kind, [s]⟩ :: pr :: prs

/-- Modelled from the spec: `DecomposeCurve` (inverse of `AssembleCurve`,
body missing from src/) turns a curve into an ordered list of primitive
descriptors, each contiguous same-type run becoming one descriptor. -/
def DecomposeCurve (c : Curve) : List Primitive :=
  decomposeRuns c.segs

/-- Closedness flag: a curve whose first start point and last end point
coincide is a shape (closed, fillable) rather than an open string. -/
def isClosedB : List Seg → Bool
  | [] => false
  | s :: rest =>
    match (s :: rest).getLast? with
    | none => false
    | some t => decide (s.p = t.q)

/-- Geometry of one flattened unit: a (possibly compound) curve, a polygon
with interior rings, or an anchored text label. -/
inductive Geom where
  | curve (c : Curve)
  | polygon (ext : Curve) (holes : List Curve)
  | text (pt : Point) (s : String)
deriving DecidableEq, Repr

/-- Exterior curve of a geometry (the ring used when the unit is consumed as
a hole of an enclosing shape). -/
def extCurve : Geom → Curve
  | .curve c => c
  | .polygon ext _ => ext
  | .text _ _ => ⟨[], false⟩

/-- Modelled from the spec: a CAD element is a leaf carrying a primitive
chain, a text label, or a complex element wrapping an ordered list of child
elements; a complex element with `isShape = true` is a closed fillable shape
(polygon exterior or hole), otherwise it is a grouped cluster.  Only the
element-handling declarations survive in src/. -/
inductive Element where
  | leaf (pr : Primitive)
  | label (pt : Point) (s : String)
  | complex (isShape : Bool) (children : List Element)

/-- Flattened Unit: an ephemeral (geometry, is-hole) pair produced by the
element walker. -/
structure FlatUnit where
  geom : Geom
  isHole : Bool
deriving DecidableEq, Repr

/-- Primitive chain carried by the leaf children of a complex element, in
document order (the sub-element chain handed to the geometry assembler). -/
def leafPrims : List Element → List Primitive
  | [] => []
  | .leaf pr :: rest => pr :: leafPrims rest
  | _ :: rest => leafPrims rest

mutual

/-- Modelled from the spec: `OGRDGNV8Layer::ProcessElement` (declared at
`ogr_dgnv8.h:60-61`, body missing from src/).  A leaf yields a single unit
whose hole flag is set exactly when it is nested (`level > 0`) under a closed
fillable shape (`parentIsShape`); a label yields one non-hole unit; a closed
complex shape yields its assembled ring with the hole units collected from
its complex children merged in as interior rings, followed by the collected
non-hole units; a non-shape complex (grouped cluster) yields its children as
independent units. -/
def ProcessElement : Element → Nat → Bool → List FlatUnit
  | .leaf pr, level, parentIsShape =>
    [⟨.curve ⟨pr.segs, !chainsB pr.segs⟩, decide (0 < level) && parentIsShape⟩]
  | .label pt s, _, _ => [⟨.text pt s, false⟩]
  | .complex true cs, level, parentIsShape =>
    ⟨.polygon (AssembleCurve (leafPrims cs))
        (((CollectSubElements cs (level + 1) true).filter (fun u => u.isHole)).map
          (fun u => extCurve u.geom)),
      decide (0 < level) && parentIsShape⟩
      :: (CollectSubElements cs (level + 1) true).filter (fun u => !u.isHole)
  | .complex false cs, level, _ => CollectSubElements cs (level + 1) false

/-- Modelled from the spec: `OGRDGNV8Layer::CollectSubElements` (declared at
`ogr_dgnv8.h:58-59`, body missing from src/).  Walks the children of a
complex element at the given nesting level; when the parent is a closed
fillable shape its leaf children are consumed by the parent's ring assembly
and are skipped here, while every other child is expanded recursively. -/
def CollectSubElements : List Element → Nat → Bool → List FlatUnit
  | [], _, _ => []
  | .leaf _ :: rest, level, true => CollectSubElements rest level true
  | c :: rest, level, parentIsShape =>
    ProcessElement c level parentIsShape ++ CollectSubElements rest level parentIsShape

end

/-- Units produced for one top-level element (entry point `ProcessElement`
with `level = 0` and no enclosing shape). -/
def unitsOf (e : Element) : List FlatUnit := ProcessElement e 0 false

/-- Units of a whole model, in document order. -/
def flatModel (es : List Element) : List FlatUnit := es.flatMap unitsOf

/-- Modelled from the spec: the layer translator's iteration state —
the model (list of top-level elements), the traversal cursor (remaining
suffix), and the pending queue `m_aoPendingFeatures` with its consumption
index `m_nIdxInPendingFeatures` (`ogr_dgnv8.h:53-54`). -/
structure Layer where
  model : List Element
  rest : List Element
  pending : List FlatUnit
  idx : Nat

/-- A freshly constructed layer translator over a model. -/
def freshLayer (m : List Element) : Layer := ⟨m, m, [], 0⟩

/-- Modelled from the spec: `OGRDGNV8Layer::CleanPendingFeatures`
(`ogr_dgnv8.h:57`, body missing from src/) discards the pending queue and
resets its consumption index. -/
def CleanPendingFeatures (s : Layer) : Layer := { s with pending := [], idx := 0 }

/-- Modelled from the spec: `OGRDGNV8Layer::ResetReading` (`ogr_dgnv8.h:86`,
body missing from src/) repositions the traversal cursor to the first
top-level element and clears the pending queue. -/
def ResetReading (s : Layer) : Layer :=
  { CleanPendingFeatures s with rest := s.model }

/-- Advance the traversal cursor until some top-level element yields units;
enqueue them and return the first (index 1 marks it consumed). -/
def advanceCursor (m : List Element) : List Element → Option (FlatUnit × Layer)
  | [] => none
  | e :: rest =>
    match unitsOf e with
    | [] => advanceCursor m rest
    | u :: us => some (u, ⟨m, rest, u :: us, 1⟩)

/-- Modelled from the spec: `OGRDGNV8Layer::GetNextUnfilteredFeature`
(`ogr_dgnv8.h:62`, body missing from src/).  Pulls from the pending queue if
non-empty, else advances the traversal cursor, processes elements and
enqueues their units, returning the first; `none` signals end-of-data. -/
def GetNextUnfilteredFeature (s : Layer) : Option (FlatUnit × Layer) :=
  if h : s.idx < s.pending.length then
    some (s.pending.get ⟨s.idx, h⟩, { s with idx := s.idx + 1 })
  else
    advanceCursor s.model s.rest

/-- Units not yet returned by the iteration: unconsumed pending queue entries
followed by the units of the elements still ahead of the cursor. -/
def queueOf (s : Layer) : List FlatUnit := s.pending.drop s.idx ++ flatModel s.rest

/-- Fuelled filtering loop underlying `GetNextFeature`; the fuel only bounds
the number of rejected units, and `(queueOf s).length` is always enough. -/
def GetNextFeatureFuel (keep : FlatUnit → Bool) : Nat → Layer → Option (FlatUnit × Layer)
  | 0, _ => none
  | fuel + 1, s =>
    match GetNextUnfilteredFeature s with
    | none => none
    | some (u, s') => if keep u then some (u, s') else GetNextFeatureFuel keep fuel s'

/-- Modelled from the spec: `OGRDGNV8Layer::GetNextFeature`
(`ogr_dgnv8.h:87`, body missing from src/) repeatedly calls
`GetNextUnfilteredFeature`, skipping units rejected by the ignored-class set
and the layer's active filters (abstracted by the `keep` predicate), and
returns the first accepted unit or end-of-data. -/
def GetNextFeature (keep : FlatUnit → Bool) (s : Layer) : Option (FlatUnit × Layer) :=
  GetNextFeatureFuel keep ((queueOf s).length + 1) s

/-- Fuelled drain of the whole iteration via `GetNextFeature`. -/
def DrainFeaturesFuel (keep : FlatUnit → Bool) : Nat → Layer → List FlatUnit
  | 0, _ => []
  | fuel + 1, s =>
    match GetNextFeature keep s with
    | none => []
    | some (u, s') => u :: DrainFeaturesFuel keep fuel s'

/-- All features returned by repeated `GetNextFeature` calls until
end-of-data. -/
def DrainFeatures (keep : FlatUnit → Bool) (s : Layer) : List FlatUnit :=
  DrainFeaturesFuel keep ((queueOf s).length + 1) s

/-- Feature geometry on the write path: the supported OGR geometry types plus
an unflattened 3D solid standing for geometries with no CAD element
equivalent. -/
inductive FeatGeom where
  | point (pt : Point)
  | lineString (c : Curve)
  | polygon (ext : Curve) (holes : List Curve)
  | compoundCurve (c : Curve)
  | solid3D
deriving DecidableEq, Repr

/-- Component curves of a supported feature geometry (exterior ring first for
polygons); a point has no curve component. -/
def GeomCurves : FeatGeom → List Curve
  | .point _ => []
  | .lineString c => [c]
  | .polygon ext holes => ext :: holes
  | .compoundCurve c => [c]
  | .solid3D => []

/-- Modelled from the spec: `OGRDGNV8Layer::TranslateLabel`
(`ogr_dgnv8.h:72-73`, body missing from src/) produces a text element
anchored at a point. -/
def TranslateLabel (pt : Point) (s : String) : Element := .label pt s

/-- Modelled from the spec: `OGRDGNV8Layer::CreateShape` (`ogr_dgnv8.h:68-69`,
body missing from src/) wraps a closed curve as a complex shape element built
from the curve's primitive descriptors; `isHole` only tells the caller to
nest the result under the enclosing exterior instead of appending it as a
sibling. -/
def CreateShape (c : Curve) (_isHole : Bool) : Element :=
  .complex true ((DecomposeCurve c).map .leaf)

/-- Modelled from the spec: `OGRDGNV8Layer::CreateGraphicsElement`
(`ogr_dgnv8.h:70-71`, body missing from src/) builds the CAD element for a
feature geometry — label for points, primitive or complex chain for curves,
shape with nested hole children for polygons — and yields nothing for
geometry types with no CAD element equivalent. -/
def CreateGraphicsElement : FeatGeom → Option Element
  | .point pt => some (TranslateLabel pt "")
  | .lineString c => some (.leaf ⟨SegKind.line, c.segs⟩)
  | .compoundCurve c => some (.complex false ((DecomposeCurve c).map .leaf))
  | .polygon ext holes =>
    some (.complex true
      ((DecomposeCurve ext).map .leaf ++ holes.map (fun h => CreateShape h true)))
  | .solid3D => none

/-- A model's element store: elements addressed by their stable identity. -/
structure ModelState where
  elems : List (Nat × Element)

/-- The state a layer translator mutates on the write path: its model plus
the owning database's modified flag. -/
structure LayerDb where
  model : ModelState
  modified : Bool

/-- Fresh element identity: strictly larger than every identity in use. -/
def freshId (m : ModelState) : Nat :=
  (m.elems.map (fun pr => pr.1)).foldr max 0 + 1

/-- Feature record returned on random access: the element identity and the
geometries of the element's flattened units. -/
structure Feature where
  fid : Nat
  geoms : List Geom
deriving DecidableEq, Repr

/-- Error result of `ICreateFeature`. -/
inductive CreateErr where
  | unsupportedGeometry
deriving DecidableEq, Repr

/-- Error result of `DeleteFeature`. -/
inductive DelErr where
  | notFound
deriving DecidableEq, Repr

/-- Modelled from the spec: `OGRDGNV8Layer::ICreateFeature`
(`ogr_dgnv8.h:100`, body missing from src/) builds the CAD element for the
feature's geometry, appends it to the model under a fresh identity and marks
the owning database modified; a geometry with no CAD element equivalent is
rejected with `unsupportedGeometry` and the state is left unchanged. -/
def ICreateFeature (g : FeatGeom) (s : LayerDb) : LayerDb × Except CreateErr Nat :=
  match CreateGraphicsElement g with
  | none => (s, .error .unsupportedGeometry)
  | some e => (⟨⟨s.model.elems ++ [(freshId s.model, e)]⟩, true⟩, .ok (freshId s.model))

/-- Modelled from the spec: `OGRDGNV8Layer::GetFeature` (`ogr_dgnv8.h:88`,
body missing from src/) opens the element with the given identity directly
and translates it, bypassing the traversal state; `none` is NotFound. -/
def GetFeature (fid : Nat) (s : LayerDb) : Option Feature :=
  match s.model.elems.find? (fun pr => pr.1 == fid) with
  | none => none
  | some (i, e) => some ⟨i, (ProcessElement e 0 false).map (fun u => u.geom)⟩

/-- Modelled from the spec: `OGRDGNV8Layer::DeleteFeature`
(`ogr_dgnv8.h:101`, body missing from src/) marks the element with the given
identity deleted at the CAD-element level, failing with NotFound when the
identity does not resolve. -/
def DeleteFeature (fid : Nat) (s : LayerDb) : LayerDb × Except DelErr Unit :=
  match s.model.elems.find? (fun pr => pr.1 == fid) with
  | none => (s, .error .notFound)
  | some _ => (⟨⟨s.model.elems.filter (fun pr => pr.1 != fid)⟩, s.modified⟩, .ok ())

/-- Modelled from the spec: `OGRDGNV8DataSource` state — the models exposed
as layers, the backing store contents, and the `m_bUpdate` / `m_bModified`
flags (`ogr_dgnv8.h:117-118`). -/
structure DataSource where
  models : List ModelState
  stored : List ModelState
  update : Bool
  modified : Bool

/-- From the source (`ogr_dgnv8.h:159-162`): `SetModified` sets
`m_bModified` to true. -/
def SetModified (ds : DataSource) : DataSource := { ds with modified := true }

/-- From the source (`ogr_dgnv8.h:134-137`): `GetLayerCount` returns the
number of layers. -/
def GetLayerCount (ds : DataSource) : Nat := ds.models.length

/-- Modelled from the spec: `OGRDGNV8DataSource::GetLayer`
(`ogr_dgnv8.h:139`, body missing from src/) returns the index-th layer
translator for an in-range index and no layer otherwise, leaving the data
source untouched. -/
def GetLayer (i : Int) (ds : DataSource) : Option ModelState × DataSource :=
  ((if 0 ≤ i then ds.models.get? i.toNat else none), ds)

/-- Modelled from the spec: `OGRDGNV8DataSource::FlushCache`
(`ogr_dgnv8.h:142`, body missing from src/).  When both the update-mode flag
and the modified flag are set it persists the database to the backing store
(`writeOk` models the external I/O outcome): on success it clears the
modified flag, on failure it leaves the state unchanged and reports the
error; otherwise it does nothing and reports success. -/
def FlushCache (_atClosing : Bool) (writeOk : Bool) (ds : DataSource) :
    DataSource × Bool :=
  if ds.update && ds.modified then
    if writeOk then ({ ds with stored := ds.models, modified := false }, true)
    else (ds, false)
  else (ds, true)

theorem all_filter_self {α : Type} (p : α → Bool) (l : List α) :
    (l.filter p).all p = true := by
  rw [List.all_eq_true]
  intro x hx
  exact (List.mem_filter.mp hx).2

theorem primSegs_decomposeRuns : ∀ l : List Seg, primSegs (decomposeRuns l) = l := by
  intro l
  induction l with
  | nil => rfl
  | cons s rest ih =>
    cases h : decomposeRuns rest with
    | nil =>
      have hr : rest = [] := by
        rw [h] at ih
        simpa [primSegs] using ih.symm
      subst hr
      simp [decomposeRuns, primSegs]
    | cons pr prs =>
      rw [h] at ih
      by_cases hk : s.kind = pr.kind
      · simp only [decomposeRuns, h, hk, if_pos]
        simp only [primSegs] at ih ⊢
        simp [ih]
      · simp only [decomposeRuns, h, if_neg hk]
        simp only [primSegs] at ih ⊢
        simp [ih]

theorem roundtrip_curve (c : Curve) :
    DecomposeCurve (AssembleCurve (DecomposeCurve c)) = DecomposeCurve c := by
  simp [DecomposeCurve, AssembleCurve, primSegs_decomposeRuns]

theorem cse_skip_leaves (ps : List Primitive) (l : List Element) (lvl : Nat) :
    CollectSubElements (ps.map .leaf ++ l) lvl true = CollectSubElements l lvl true := by
  induction ps with
  | nil => rfl
  | cons pr ps ih => simpa [CollectSubElements] using ih

theorem cse_map_leaf (ps : List Primitive) (lvl : Nat) :
    CollectSubElements (ps.map .leaf) lvl true = [] := by
  induction ps with
  | nil => rfl
  | cons pr ps ih => simpa [CollectSubElements] using ih

theorem leafPrims_leaves (ps : List Primitive) (l : List Element) :
    leafPrims (ps.map .leaf ++ l) = ps ++ leafPrims l := by
  induction ps with
  | nil => rfl
  | cons pr ps ih => simp [leafPrims, ih]

theorem leafPrims_map_leaf (ps : List Primitive) : leafPrims (ps.map .leaf) = ps := by
  induction ps with
  | nil => rfl
  | cons pr ps ih => simp [leafPrims, ih]

theorem pe_nonhole :
    ∀ (e : Element) (lvl : Nat) (ctx : Bool), ctx = false →
      ((ProcessElement e lvl ctx).all fun u => !u.isHole) = true := by
  apply ProcessElement.induct
    (fun e lvl ctx => ctx = false → ((ProcessElement e lvl ctx).all fun u => !u.isHole) = true)
    (fun cs lvl ctx => ctx = false → ((CollectSubElements cs lvl ctx).all fun u => !u.isHole) = true)
  · intro pr lvl ctx hc
    subst hc
    simp [ProcessElement]
  · intro pt s lvl ctx hc
    simp [ProcessElement]
  · intro cs lvl ctx _ hc
    subst hc
    simp only [ProcessElement, List.all_cons, Bool.and_eq_true]
    refine ⟨by simp, ?_⟩
    exact all_filter_self _ _
  · intro cs lvl ctx ih hc
    simp only [ProcessElement]
    exact ih rfl
  · intro lvl ctx _
    rfl
  · intro pr rest lvl _ hc
    exact absurd hc (by simp)
  · intro c rest lvl ctx _ ih1 ih2 hc
    subst hc
    cases c <;>
      simp only [CollectSubElements, List.all_append, Bool.and_eq_true] <;>
      exact ⟨ih1 rfl, ih2 rfl⟩

theorem flatModel_nonhole (es : List Element) :
    ((flatModel es).all fun u => !u.isHole) = true := by
  induction es with
  | nil => rfl
  | cons e rest ih =>
    simp only [flatModel, List.flatMap_cons, List.all_append, Bool.and_eq_true]
    exact ⟨pe_nonhole e 0 false rfl, ih⟩

theorem advanceCursor_none (m : List Element) :
    ∀ rest, advanceCursor m rest = none → flatModel rest = [] := by
  intro rest
  induction rest with
  | nil => intro _; rfl
  | cons e rest ih =>
    intro h
    cases hu : unitsOf e with
    | nil =>
      simp only [advanceCursor, hu] at h
      have hr := ih h
      simp only [flatModel] at hr ⊢
      rw [List.flatMap_cons, hu, hr]
      rfl
    | cons u us =>
      simp only [advanceCursor, hu] at h
      exact Option.noConfusion h

theorem advanceCursor_some (m : List Element) :
    ∀ rest u s', advanceCursor m rest = some (u, s') →
      flatModel rest = u :: queueOf s' ∧ s'.model = m := by
  intro rest
  induction rest with
  | nil => intro u s' h; exact Option.noConfusion h
  | cons e rest ih =>
    intro u s' h
    cases hu : unitsOf e with
    | nil =>
      simp only [advanceCursor, hu] at h
      obtain ⟨h1, h2⟩ := ih u s' h
      refine ⟨?_, h2⟩
      simp only [flatModel] at h1 ⊢
      rw [List.flatMap_cons, hu, h1]
      rfl
    | cons u0 us =>
      simp only [advanceCursor, hu, Option.some.injEq, Prod.mk.injEq] at h
      obtain ⟨h1, h2⟩ := h
      subst h1
      subst h2
      refine ⟨?_, rfl⟩
      simp only [flatModel, queueOf]
      rw [List.flatMap_cons, hu]
      simp

theorem getNextU_none (s : Layer) (h : GetNextUnfilteredFeature s = none) :
    queueOf s = [] := by
  unfold GetNextUnfilteredFeature at h
  split at h
  · exact Option.noConfusion h
  · next hlt =>
    have hle : s.pending.length ≤ s.idx := Nat.le_of_not_lt hlt
    have hr := advanceCursor_none s.model s.rest h
    simp [queueOf, List.drop_eq_nil_of_le hle, hr]

theorem getNextU_some (s : Layer) (u : FlatUnit) (s' : Layer)
    (h : GetNextUnfilteredFeature s = some (u, s')) :
    queueOf s = u :: queueOf s' ∧ s'.model = s.model := by
  unfold GetNextUnfilteredFeature at h
  split at h
  · next hlt =>
    simp only [Option.some.injEq, Prod.mk.injEq] at h
    obtain ⟨h1, h2⟩ := h
    subst h1
    subst h2
    refine ⟨?_, rfl⟩
    simp only [queueOf]
    rw [List.drop_eq_getElem_cons hlt, List.cons_append]
    rfl
  · next hlt =>
    have hle : s.pending.length ≤ s.idx := Nat.le_of_not_lt hlt
    obtain ⟨h1, h2⟩ := advanceCursor_some s.model s.rest u s' h
    refine ⟨?_, h2⟩
    simp [queueOf, List.drop_eq_nil_of_le hle, h1]

theorem getNextFF_spec (keep : FlatUnit → Bool) :
    ∀ (fuel : Nat) (s : Layer), (queueOf s).length < fuel →
      (GetNextFeatureFuel keep fuel s = none → (queueOf s).filter keep = [])
      ∧ ((queueOf s).filter keep = [] → GetNextFeatureFuel keep fuel s = none)
      ∧ ∀ u s', GetNextFeatureFuel keep fuel s = some (u, s') →
          (queueOf s).filter keep = u :: (queueOf s').filter keep
          ∧ (queueOf s').length < (queueOf s).length := by
  intro fuel
  induction fuel with
  | zero => intro s h; exact absurd h (Nat.not_lt_zero _)
  | succ fuel ih =>
    intro s hlen
    cases hU : GetNextUnfilteredFeature s with
    | none =>
      have hq := getNextU_none s hU
      have hred : GetNextFeatureFuel keep (fuel + 1) s = none := by
        simp only [GetNextFeatureFuel, hU]
      exact ⟨fun _ => by simp [hq], fun _ => hred,
        fun u s' h => by rw [hred] at h; exact Option.noConfusion h⟩
    | some us0 =>
      obtain ⟨u0, s0⟩ := us0
      obtain ⟨hq, _⟩ := getNextU_some s u0 s0 hU
      have hlen0 : (queueOf s0).length < (queueOf s).length := by rw [hq]; simp
      cases hk : keep u0 with
      | true =>
        have hred : GetNextFeatureFuel keep (fuel + 1) s = some (u0, s0) := by
          simp [GetNextFeatureFuel, hU, hk]
        refine ⟨fun h => ?_, fun hf => ?_, fun u s' h => ?_⟩
        · rw [hred] at h
          exact Option.noConfusion h
        · rw [hq] at hf
          simp [List.filter_cons, hk] at hf
        · rw [hred] at h
          simp only [Option.some.injEq, Prod.mk.injEq] at h
          obtain ⟨h1, h2⟩ := h
          subst h1
          subst h2
          refine ⟨?_, hlen0⟩
          rw [hq]
          simp [List.filter_cons, hk]
      | false =>
        have hred : GetNextFeatureFuel keep (fuel + 1) s = GetNextFeatureFuel keep fuel s0 := by
          simp [GetNextFeatureFuel, hU, hk]
        have hlen' : (queueOf s0).length < fuel := by omega
        obtain ⟨ihn, ihn', ihs⟩ := ih s0 hlen'
        have hfeq : (queueOf s).filter keep = (queueOf s0).filter keep := by
          rw [hq]
          simp [List.filter_cons, hk]
        refine ⟨fun h => by rw [hfeq]; exact ihn (by rw [← hred]; exact h),
          fun hf => by rw [hred]; exact ihn' (by rw [← hfeq]; exact hf), fun u s' h => ?_⟩
        rw [hred] at h
        obtain ⟨ha, hb⟩ := ihs u s' h
        exact ⟨by rw [hfeq]; exact ha, lt_trans hb hlen0⟩

theorem getNextF_spec (keep : FlatUnit → Bool) (s : Layer) :
    (GetNextFeature keep s = none → (queueOf s).filter keep = [])
    ∧ ((queueOf s).filter keep = [] → GetNextFeature keep s = none)
    ∧ ∀ u s', GetNextFeature keep s = some (u, s') →
        (queueOf s).filter keep = u :: (queueOf s').filter keep
        ∧ (queueOf s').length < (queueOf s).length :=
  getNextFF_spec keep ((queueOf s).length + 1) s (Nat.lt_succ_self _)

theorem DrainFeaturesFuel_eq (keep : FlatUnit → Bool) :
    ∀ (fuel : Nat) (s : Layer), (queueOf s).length < fuel →
      DrainFeaturesFuel keep fuel s = (queueOf s).filter keep := by
  intro fuel
  induction fuel with
  | zero => intro s h; exact absurd h (Nat.not_lt_zero _)
  | succ fuel ih =>
    intro s hlen
    obtain ⟨hn, _, hs⟩ := getNextF_spec keep s
    cases hF : GetNextFeature keep s with
    | none =>
      simp only [DrainFeaturesFuel, hF]
      exact (hn hF).symm
    | some us0 =>
      obtain ⟨u, s'⟩ := us0
      obtain ⟨ha, hb⟩ := hs u s' hF
      simp only [DrainFeaturesFuel, hF]
      rw [ha, ih s' (by omega)]

theorem DrainFeatures_eq (keep : FlatUnit → Bool) (s : Layer) :
    DrainFeatures keep s = (queueOf s).filter keep :=
  DrainFeaturesFuel_eq keep ((queueOf s).length + 1) s (Nat.lt_succ_self _)

theorem mem_le_foldr_max : ∀ (l : List Nat) (a : Nat), a ∈ l → a ≤ l.foldr max 0 := by
  intro l
  induction l with
  | nil => intro a h; exact absurd h (List.not_mem_nil a)
  | cons b rest ih =>
    intro a h
    rcases List.mem_cons.mp h with rfl | h'
    · exact le_max_left _ _
    · exact le_trans (ih a h') (le_max_right _ _)

theorem find?_freshId (m : ModelState) :
    m.elems.find? (fun pr => pr.1 == freshId m) = none := by
  rw [List.find?_eq_none]
  intro x hx
  simp only [beq_iff_eq]
  intro he
  have hle : x.1 ≤ (m.elems.map (fun pr => pr.1)).foldr max 0 :=
    mem_le_foldr_max _ _ (List.mem_map_of_mem _ hx)
  simp only [freshId] at he
  omega

theorem find?_filter_ne (l : List (Nat × Element)) (fid : Nat) :
    (l.filter fun pr => pr.1 != fid).find? (fun pr => pr.1 == fid) = none := by
  rw [List.find?_eq_none]
  intro x hx
  have hx2 := (List.mem_filter.mp hx).2
  simp only [bne_iff_ne, ne_eq] at hx2
  simp only [beq_iff_eq]
  exact hx2

theorem find?_false {α : Type} (l : List α) : l.find? (fun _ => false) = none := by
  rw [List.find?_eq_none]
  intro x _
  simp

theorem isSome_get? {α : Type} (l : List α) : ∀ n : Nat,
    (l.get? n).isSome = decide (n < l.length) := by
  induction l with
  | nil => intro n; cases n <;> simp [List.get?]
  | cons a l ih =>
    intro n
    cases n with
    | zero => simp [List.get?]
    | succ n =>
      rw [show (a :: l).get? (n + 1) = l.get? n from rfl, ih n]
      exact decide_eq_decide.mpr Nat.succ_lt_succ_iff.symm

/-- C1: for every supported geometry type G (point, line string, polygon with
0..N holes, compound curve), decomposing G's component curves into primitive
descriptors, assembling those descriptors back into a curve, and decomposing
again yields the same descriptor lists as decomposing once; exact integer
coordinates model the fixed numeric tolerance. -/
theorem C1_decompose_assemble_roundtrip :
    (∀ c : Curve, DecomposeCurve (AssembleCurve (DecomposeCurve c)) = DecomposeCurve c)
    ∧ ∀ G : FeatGeom,
        (GeomCurves G).map (fun c => DecomposeCurve (AssembleCurve (DecomposeCurve c)))
          = (GeomCurves G).map DecomposeCurve :=
  ⟨roundtrip_curve, fun _ => List.map_congr_left fun c _ => roundtrip_curve c⟩

/-- C2: the walker's flattening classifies a child as a hole exactly when it
is nested under a closed exterior shape: a closed exterior shape containing
two nested closed children flattens to exactly one unit whose polygon
geometry has exactly two interior rings; every unit obtained from a
non-shape complex element is an independent exterior (non-hole) unit; no
hole unit ever survives to the top level of a model, so none can attach to a
sibling or subsequent top-level element's feature; and a closed shape walked
at positive depth in shape context is emitted with its hole flag set. -/
theorem C2_hole_classification :
    (∀ ps qs1 qs2 : List Primitive,
      ProcessElement
          (.complex true (ps.map .leaf
            ++ [.complex true (qs1.map .leaf), .complex true (qs2.map .leaf)])) 0 false
        = [⟨.polygon (AssembleCurve ps) [AssembleCurve qs1, AssembleCurve qs2], false⟩])
    ∧ (∀ (cs : List Element) (lvl : Nat) (ctx : Bool),
        ((ProcessElement (.complex false cs) lvl ctx).all fun u => !u.isHole) = true)
    ∧ (∀ es : List Element, ((flatModel es).all fun u => !u.isHole) = true)
    ∧ ∀ (cs : List Element) (lvl : Nat),
        ((ProcessElement (.complex true cs) (lvl + 1) true).head?.map FlatUnit.isHole)
          = some true := by
  refine ⟨fun ps qs1 qs2 => ?_, fun cs lvl ctx => ?_, flatModel_nonhole, fun cs lvl => ?_⟩
  · simp [ProcessElement, CollectSubElements, cse_skip_leaves, cse_map_leaf,
      leafPrims_leaves, leafPrims_map_leaf, leafPrims, extCurve]
  · have heq : ProcessElement (.complex false cs) lvl ctx
        = ProcessElement (.complex false cs) lvl false := by
      simp only [ProcessElement]
    rw [heq]
    exact pe_nonhole _ _ _ rfl
  · simp [ProcessElement]

/-- C3: over a model of top-level elements, repeated `GetNextFeature` calls
on a fresh layer return exactly the flattened units of all elements in
document order minus those rejected by the ignored-class/filter predicate —
in particular exactly the sum of the per-element unit counts when nothing is
filtered — before signalling end-of-data, and no unit is returned twice. -/
theorem C3_traversal_completeness :
    ∀ (m : List Element) (keep : FlatUnit → Bool),
      DrainFeatures keep (freshLayer m) = (flatModel m).filter keep
      ∧ (DrainFeatures (fun _ => true) (freshLayer m)).length
          = (m.map fun e => (unitsOf e).length).sum := by
  intro m keep
  have hq : queueOf (freshLayer m) = flatModel m := by
    simp [queueOf, freshLayer]
  constructor
  · rw [DrainFeatures_eq, hq]
  · rw [DrainFeatures_eq, hq, List.filter_true, flatModel, List.length_flatMap]
    rfl

/-- C4 (amended): `GetNextUnfilteredFeature` returns the next unit from the
pending queue when it is non-empty; otherwise it advances the traversal
cursor step by step — an element whose expansion is empty yields nothing and
the cursor moves on — until some element yields units, which are enqueued
with the first returned; and it signals end-of-data exactly when the pending
queue is exhausted and every element at or after the cursor expands to no
flattened units. -/
theorem C4_next_unfiltered_amended :
    (∀ s : Layer, ∀ h : s.idx < s.pending.length,
      GetNextUnfilteredFeature s
        = some (s.pending.get ⟨s.idx, h⟩, { s with idx := s.idx + 1 }))
    ∧ (∀ (m : List Element) (e : Element) (rest : List Element)
         (pending : List FlatUnit) (idx : Nat) (u : FlatUnit) (us : List FlatUnit),
        pending.length ≤ idx → unitsOf e = u :: us →
          GetNextUnfilteredFeature ⟨m, e :: rest, pending, idx⟩
            = some (u, ⟨m, rest, u :: us, 1⟩))
    ∧ (∀ (m : List Element) (e : Element) (rest : List Element)
         (pending : List FlatUnit) (idx : Nat),
        pending.length ≤ idx → unitsOf e = [] →
          GetNextUnfilteredFeature ⟨m, e :: rest, pending, idx⟩
            = GetNextUnfilteredFeature ⟨m, rest, [], 0⟩)
    ∧ ∀ s : Layer, (GetNextUnfilteredFeature s = none ↔ queueOf s = []) := by
  refine ⟨fun s h => ?_, fun m e rest pending idx u us hle hu => ?_,
    fun m e rest pending idx hle hu => ?_, fun s => ⟨getNextU_none s, fun hq => ?_⟩⟩
  · unfold GetNextUnfilteredFeature
    rw [dif_pos h]
  · unfold GetNextUnfilteredFeature
    rw [dif_neg (Nat.not_lt.mpr hle)]
    simp only [advanceCursor, hu]
  · unfold GetNextUnfilteredFeature
    rw [dif_neg (Nat.not_lt.mpr hle)]
    simp [advanceCursor, hu]
  · cases hres : GetNextUnfilteredFeature s with
    | none => rfl
    | some us0 =>
      obtain ⟨u, s'⟩ := us0
      have := (getNextU_some s u s' hres).1
      rw [hq] at this
      exact List.noConfusion this

/-- C4 (counterexample): a childless grouped cluster expands to no flattened
units, so on a fresh layer over such a model `GetNextUnfilteredFeature`
signals end-of-data even though the traversal cursor is not exhausted — it
had to advance past a top-level element without returning a unit, contrary
to the claim that it advances exactly one step, returns that element's first
unit, and signals end-of-data exactly when the cursor is exhausted. -/
theorem C4_next_unfiltered_counterexample :
    GetNextUnfilteredFeature (freshLayer [.complex false []]) = none
    ∧ (freshLayer [.complex false []]).rest.length = 1 := by
  constructor
  · simp [GetNextUnfilteredFeature, freshLayer, advanceCursor, unitsOf,
      ProcessElement, CollectSubElements]
  · rfl

/-- C4 (witness): on a layer whose pending queue holds one unconsumed unit,
`GetNextUnfilteredFeature` returns that unit and advances the queue index. -/
theorem C4_next_unfiltered_witness :
    GetNextUnfilteredFeature ⟨[], [], [⟨.text (0, 0) "", false⟩], 0⟩
      = some (⟨.text (0, 0) "", false⟩, ⟨[], [], [⟨.text (0, 0) "", false⟩], 1⟩) :=
  C4_next_unfiltered_amended.1 ⟨[], [], [⟨.text (0, 0) "", false⟩], 0⟩ (by decide)

/-- C5: `ResetReading` restores the state of a freshly constructed layer
translator over the same model — cursor on the first top-level element,
pending queue cleared — it is idempotent, and the next `GetNextFeature`
after a reset returns exactly what a fresh translator would return. -/
theorem C5_reset_reading :
    ∀ s : Layer,
      ResetReading s = freshLayer s.model
      ∧ ResetReading (ResetReading s) = ResetReading s
      ∧ ∀ keep : FlatUnit → Bool,
          GetNextFeature keep (ResetReading s) = GetNextFeature keep (freshLayer s.model) :=
  fun _ => ⟨rfl, rfl, fun _ => rfl⟩

/-- C6: a feature whose geometry has a CAD element equivalent and is created
via `ICreateFeature` is retrievable via `GetFeature` under the returned
identity, deletable via `DeleteFeature` under that same identity, and after
the deletion `GetFeature` with that identity returns NotFound (`none`). -/
theorem C6_create_get_delete :
    ∀ (s : LayerDb) (g : FeatGeom) (e : Element), CreateGraphicsElement g = some e →
      (ICreateFeature g s).2 = .ok (freshId s.model)
      ∧ GetFeature (freshId s.model) (ICreateFeature g s).1
          = some ⟨freshId s.model, (ProcessElement e 0 false).map fun u => u.geom⟩
      ∧ (DeleteFeature (freshId s.model) (ICreateFeature g s).1).2 = .ok ()
      ∧ GetFeature (freshId s.model)
          (DeleteFeature (freshId s.model) (ICreateFeature g s).1).1 = none := by
  intro s g e hg
  have h1 : ICreateFeature g s
      = (⟨⟨s.model.elems ++ [(freshId s.model, e)]⟩, true⟩, .ok (freshId s.model)) := by
    simp [ICreateFeature, hg]
  have hfind : (s.model.elems ++ [(freshId s.model, e)]).find?
      (fun pr => pr.1 == freshId s.model) = some (freshId s.model, e) := by
    rw [List.find?_append, find?_freshId]
    simp [List.find?]
  refine ⟨by rw [h1], ?_, ?_, ?_⟩
  · rw [h1]
    simp [GetFeature, hfind]
  · rw [h1]
    simp [DeleteFeature, hfind]
  · rw [h1]
    simp [GetFeature, DeleteFeature, hfind, find?_filter_ne, find?_false]

/-- C6 (witness): on an empty model, creating a point feature yields identity
1, `GetFeature 1` finds it, `DeleteFeature 1` succeeds, and afterwards
`GetFeature 1` returns NotFound. -/
theorem C6_create_get_delete_witness :
    (ICreateFeature (.point (0, 0)) ⟨⟨[]⟩, false⟩).2 = .ok 1
    ∧ GetFeature 1 (ICreateFeature (.point (0, 0)) ⟨⟨[]⟩, false⟩).1
        = some ⟨1, [Geom.text (0, 0) ""]⟩
    ∧ (DeleteFeature 1 (ICreateFeature (.point (0, 0)) ⟨⟨[]⟩, false⟩).1).2 = .ok ()
    ∧ GetFeature 1
        (DeleteFeature 1 (ICreateFeature (.point (0, 0)) ⟨⟨[]⟩, false⟩).1).1 = none :=
  C6_create_get_delete ⟨⟨[]⟩, false⟩ (.point (0, 0)) (.label (0, 0) "") rfl

/-- C7: when the primitive segments do not chain contiguously, curve assembly
still emits the curve built from the segments exactly as given and flags it
non-simple instead of aborting or dropping the element, and the translation
of the other elements of the model is unaffected. -/
theorem C7_malformed_curve_recovery :
    ∀ ps : List Primitive, chainsB (primSegs ps) = false →
      (AssembleCurve ps).nonSimple = true
      ∧ (AssembleCurve ps).segs = primSegs ps
      ∧ ∀ pre post : List Element,
          flatModel (pre ++ .complex true (ps.map .leaf) :: post)
            = flatModel pre
              ++ ⟨.polygon (AssembleCurve ps) [], false⟩ :: flatModel post := by
  intro ps h
  refine ⟨by simp [AssembleCurve, h], rfl, fun pre post => ?_⟩
  have hunit : unitsOf (.complex true (ps.map .leaf))
      = [⟨.polygon (AssembleCurve ps) [], false⟩] := by
    simp [unitsOf, ProcessElement, cse_map_leaf, leafPrims_map_leaf]
  simp only [flatModel, List.flatMap_append, List.flatMap_cons]
  rw [hunit]
  rfl

/-- C7 (witness): two unit line segments whose endpoints do not meet fail the
chaining check, and the assembled curve is flagged non-simple. -/
theorem C7_malformed_curve_recovery_witness :
    chainsB (primSegs [⟨SegKind.line, [⟨SegKind.line, (0, 0), (1, 0)⟩]⟩,
        ⟨SegKind.line, [⟨SegKind.line, (5, 5), (6, 5)⟩]⟩]) = false
    ∧ (AssembleCurve [⟨SegKind.line, [⟨SegKind.line, (0, 0), (1, 0)⟩]⟩,
        ⟨SegKind.line, [⟨SegKind.line, (5, 5), (6, 5)⟩]⟩]).nonSimple = true :=
  ⟨by decide,
    (C7_malformed_curve_recovery [⟨SegKind.line, [⟨SegKind.line, (0, 0), (1, 0)⟩]⟩,
      ⟨SegKind.line, [⟨SegKind.line, (5, 5), (6, 5)⟩]⟩] (by decide)).1⟩

/-- C8: on success `ICreateFeature` appends the new element to the model
under a fresh identity and sets the owning database's modified flag; for a
geometry with no CAD element equivalent it fails with UnsupportedGeometry
and leaves the state unchanged (no element appended). -/
theorem C8_create_appends_and_marks :
    (∀ (s : LayerDb) (g : FeatGeom) (e : Element), CreateGraphicsElement g = some e →
      ICreateFeature g s
        = (⟨⟨s.model.elems ++ [(freshId s.model, e)]⟩, true⟩, .ok (freshId s.model)))
    ∧ (∀ (s : LayerDb) (g : FeatGeom), CreateGraphicsElement g = none →
        ICreateFeature g s = (s, .error .unsupportedGeometry))
    ∧ ∀ s : LayerDb, ICreateFeature .solid3D s = (s, .error .unsupportedGeometry) :=
  ⟨fun s g e hg => by simp [ICreateFeature, hg],
   fun s g hg => by simp [ICreateFeature, hg],
   fun _ => rfl⟩

/-- C8 (witness): creating a point feature on an empty unmodified layer
appends the label element under identity 1 and sets the modified flag, while
creating an unflattened 3D solid is rejected and changes nothing. -/
theorem C8_create_appends_and_marks_witness :
    ICreateFeature (.point (0, 0)) ⟨⟨[]⟩, false⟩
      = (⟨⟨[(1, .label (0, 0) "")]⟩, true⟩, .ok 1)
    ∧ ICreateFeature .solid3D ⟨⟨[]⟩, false⟩ = (⟨⟨[]⟩, false⟩, .error .unsupportedGeometry) :=
  ⟨C8_create_appends_and_marks.1 ⟨⟨[]⟩, false⟩ (.point (0, 0)) (.label (0, 0) "") rfl,
   C8_create_appends_and_marks.2.2 ⟨⟨[]⟩, false⟩⟩

/-- C9: `FlushCache` persists the database to the backing store exactly when
the update-mode flag, the modified flag and the external write all hold; on
success it clears the modified flag; on failure the state — in particular
the modified flag — is unchanged, so the caller can retry (a later
successful flush persists and clears the flag); when update-mode or modified
is unset it does nothing and reports success. -/
theorem C9_flush_cache :
    (∀ (b w : Bool) (ds : DataSource),
      (FlushCache b w ds).1.stored
        = if ds.update && ds.modified && w then ds.models else ds.stored)
    ∧ (∀ (b : Bool) (ds : DataSource), ds.update = true → ds.modified = true →
        (FlushCache b true ds).1.modified = false
        ∧ (FlushCache b true ds).2 = true
        ∧ (FlushCache b true ds).1.stored = ds.models
        ∧ FlushCache b false ds = (ds, false)
        ∧ (FlushCache b true (FlushCache b false ds).1).1.stored = ds.models
        ∧ (FlushCache b true (FlushCache b false ds).1).1.modified = false)
    ∧ ∀ (b w : Bool) (ds : DataSource), (ds.update && ds.modified) = false →
        FlushCache b w ds = (ds, true) := by
  refine ⟨fun b w ds => ?_, fun b ds h1 h2 => ?_, fun b w ds h => ?_⟩
  · cases hu : ds.update <;> cases hm : ds.modified <;> cases w <;>
      simp [FlushCache, hu, hm]
  · simp [FlushCache, h1, h2]
  · simp [FlushCache, h]

/-- C9 (witness): on an update-mode, modified data source with one model, a
failed flush leaves everything unchanged (modified still set), and a
subsequent successful flush persists the model list and clears the flag. -/
theorem C9_flush_cache_witness :
    (FlushCache true true ⟨[⟨[]⟩], [], true, true⟩).1.modified = false
    ∧ FlushCache true false ⟨[⟨[]⟩], [], true, true⟩ = (⟨[⟨[]⟩], [], true, true⟩, false)
    ∧ (FlushCache true true (FlushCache true false ⟨[⟨[]⟩], [], true, true⟩).1).1.stored
        = [⟨[]⟩] :=
  ⟨(C9_flush_cache.2.1 true ⟨[⟨[]⟩], [], true, true⟩ rfl rfl).1,
   (C9_flush_cache.2.1 true ⟨[⟨[]⟩], [], true, true⟩ rfl rfl).2.2.2.1,
   (C9_flush_cache.2.1 true ⟨[⟨[]⟩], [], true, true⟩ rfl rfl).2.2.2.2.1⟩

/-- C10: `GetLayer i` returns the i-th layer translator exactly when
`0 ≤ i < GetLayerCount` and no layer otherwise (negative or too large
index), and the call leaves the data source — in particular the layer count
and every layer's state — unchanged. -/
theorem C10_get_layer :
    ∀ (ds : DataSource) (i : Int),
      (GetLayer i ds).2 = ds
      ∧ GetLayerCount (GetLayer i ds).2 = GetLayerCount ds
      ∧ (GetLayer i ds).1 = (if 0 ≤ i then ds.models.get? i.toNat else none)
      ∧ (GetLayer i ds).1.isSome
          = (decide (0 ≤ i) && decide (i < (GetLayerCount ds : Int))) := by
  intro ds i
  refine ⟨rfl, rfl, rfl, ?_⟩
  by_cases h : 0 ≤ i
  · simp only [GetLayer, if_pos h, decide_eq_true h, Bool.true_and]
    rw [isSome_get?]
    have hiff := @Int.toNat_lt ds.models.length i h
    by_cases hlt : i.toNat < ds.models.length
    · simp [GetLayerCount, hlt, hiff.mp hlt]
    · have hnot : ¬ i < (ds.models.length : Int) := fun hc => hlt (hiff.mpr hc)
      simp [GetLayerCount, hlt, hnot]
  · simp [GetLayer, if_neg h, h]

end DGNv8
